import Mathlib

/-!
Verification development for the NIQE / IL-NIQE quality-scoring pipelines of
`pyiqa` (files `pyiqa/archs/niqe_arch.py` and `pyiqa/archs/func_util.py`).

The Python code is shallowly embedded as follows.

* Tensor entries are exact rationals (`ℚ`).  Where IEEE semantics with
  non-finite values matters (the `nanmean` helper and the Weibull fitter,
  whose behaviour on degenerate input is exactly what the claims are about),
  entries are modelled by the type `EV` of extended values
  (`fin q | nan | pinf | ninf`) with NaN/infinity-propagating arithmetic.
* Transcendental primitives supplied by the array library (`torch.sqrt`,
  `torch.exp`, `torch.lgamma`, `torch.log`, real powers, `torch.linalg.pinv`)
  and the externally supplied anti-aliased downsample (`imresize`, which the
  spec treats as an external collaborator) are abstracted into a record
  `RealO` of oracle functions; the embedded pipeline is parametric in the
  oracle.  Everything the claims decide — control flow, index bookkeeping,
  reduction axes, batching structure, the nearest-table lookups — is embedded
  concretely.
* A batched `(b, c, h, w)` tensor with `c = 1` is a `List` (batch dimension)
  of `Img := ℕ → ℕ → ℚ` (a single-channel map) together with its explicit
  height/width; blocks are index-shifted views, exactly as slicing produces
  views in the source.
-/

/-- Extended value: a float that is either an exact finite rational or one of
the IEEE special values NaN, +inf, -inf.  Models a `torch` float scalar on the
degenerate paths the error-handling claims are about. -/
inductive EV : Type
  | fin (q : ℚ)
  | nan
  | pinf
  | ninf
  deriving DecidableEq

/-- Negation of an extended value. -/
def EV.neg : EV → EV
  | .fin q => .fin (-q)
  | .nan => .nan
  | .pinf => .ninf
  | .ninf => .pinf

/-- IEEE-style addition: NaN propagates, `+inf + -inf = NaN`. -/
def EV.add : EV → EV → EV
  | .nan, _ => .nan
  | .fin a, b =>
      match b with
      | .nan => .nan
      | .fin c => .fin (a + c)
      | .pinf => .pinf
      | .ninf => .ninf
  | .pinf, b =>
      match b with
      | .nan => .nan
      | .fin _ => .pinf
      | .pinf => .pinf
      | .ninf => .nan
  | .ninf, b =>
      match b with
      | .nan => .nan
      | .fin _ => .ninf
      | .pinf => .nan
      | .ninf => .ninf

/-- IEEE-style subtraction. -/
def EV.sub (a b : EV) : EV := a.add b.neg

/-- IEEE-style multiplication: NaN propagates, `0 * inf = NaN`. -/
def EV.mul : EV → EV → EV
  | .nan, _ => .nan
  | .fin a, b =>
      match b with
      | .nan => .nan
      | .fin c => .fin (a * c)
      | .pinf => if a = 0 then .nan else if 0 < a then .pinf else .ninf
      | .ninf => if a = 0 then .nan else if 0 < a then .ninf else .pinf
  | .pinf, b =>
      match b with
      | .nan => .nan
      | .fin c => if c = 0 then .nan else if 0 < c then .pinf else .ninf
      | .pinf => .pinf
      | .ninf => .ninf
  | .ninf, b =>
      match b with
      | .nan => .nan
      | .fin c => if c = 0 then .nan else if 0 < c then .ninf else .pinf
      | .pinf => .ninf
      | .ninf => .pinf

/-- IEEE-style division: NaN propagates, `0/0 = inf/inf = NaN`,
`x/0 = ±inf` for `x ≠ 0`, `x/±inf = 0` for finite `x`. -/
def EV.div : EV → EV → EV
  | .nan, _ => .nan
  | .fin a, b =>
      match b with
      | .nan => .nan
      | .fin c =>
          if c = 0 then (if a = 0 then .nan else if 0 < a then .pinf else .ninf)
          else .fin (a / c)
      | .pinf => .fin 0
      | .ninf => .fin 0
  | .pinf, b =>
      match b with
      | .nan => .nan
      | .fin c => if 0 ≤ c then .pinf else .ninf
      | .pinf => .nan
      | .ninf => .nan
  | .ninf, b =>
      match b with
      | .nan => .nan
      | .fin c => if 0 ≤ c then .ninf else .pinf
      | .pinf => .nan
      | .ninf => .nan

/-- Absolute value of an extended value (`abs NaN = NaN`). -/
def EV.abs : EV → EV
  | .fin q => .fin |q|
  | .nan => .nan
  | .pinf => .pinf
  | .ninf => .pinf

/-- `torch.isnan` on a scalar. -/
def EV.isnan : EV → Bool
  | .nan => true
  | _ => false

/-- IEEE comparison `a < b` as computed by floats: any comparison with NaN is
false. -/
def EV.ltb : EV → EV → Bool
  | .nan, _ => false
  | .fin a, b =>
      match b with
      | .nan => false
      | .fin c => a < c
      | .pinf => true
      | .ninf => false
  | .pinf, _ => false
  | .ninf, b =>
      match b with
      | .nan => false
      | .fin _ => true
      | .pinf => true
      | .ninf => false

/-- `max` of two extended values as `torch.max` reduces: NaN propagates. -/
def EV.maxv (a b : EV) : EV :=
  match a with
  | .nan => .nan
  | x =>
      match b with
      | .nan => .nan
      | y => if EV.ltb x y then y else x

/-- Sum of a list of extended values. -/
def EV.sumL (l : List EV) : EV := l.foldr EV.add (.fin 0)

/-- `l.max()` reduction over a list of extended values; returns `-inf` on the
empty list (torch errors there; the embedding never takes this branch). -/
def EV.maxL (l : List EV) : EV := l.foldr EV.maxv .ninf

/-- Oracle record abstracting the real-valued primitives of the array library
(and, for `half`, the external resize collaborator).  `log`, `sqrt`, `exp`,
`lgamma` and `pow` stand for the corresponding real functions restricted to
the arguments on which they are finite; `pinv` stands for
`torch.linalg.pinv` on one matrix of the batch; `half` for the externally
supplied anti-aliased 0.5× `imresize` on one image of the batch. -/
structure RealO : Type where
  log : ℚ → ℚ
  sqrt : ℚ → ℚ
  exp : ℚ → ℚ
  lgamma : ℚ → ℚ
  pow : ℚ → ℚ → ℚ
  pinv : List (List ℚ) → List (List ℚ)
  half : (ℕ → ℕ → ℚ) → (ℕ → ℕ → ℚ)

/-- `torch.log` on an extended value: negative arguments give NaN, zero gives
`-inf`, positive finite arguments are delegated to the oracle. -/
def EV.logO (O : RealO) : EV → EV
  | .fin q => if q < 0 then .nan else if q = 0 then .ninf else .fin (O.log q)
  | .nan => .nan
  | .pinf => .pinf
  | .ninf => .nan

/-- `torch.sqrt` on an extended value. -/
def EV.sqrtO (O : RealO) : EV → EV
  | .fin q => if q < 0 then .nan else .fin (O.sqrt q)
  | .nan => .nan
  | .pinf => .pinf
  | .ninf => .nan

/-- `torch.pow` on extended values, IEEE-style: `pow x 0 = 1` and
`pow 1 y = 1` even for NaN arguments; otherwise NaN propagates; a negative
finite base with non-integral finite exponent gives NaN, with an integral
exponent it is exact integer power; positive finite base and finite exponent
are delegated to the oracle. -/
def EV.powO (O : RealO) : EV → EV → EV
  | .fin q, e =>
      match e with
      | .fin c =>
          if c = 0 then .fin 1
          else if q = 1 then .fin 1
          else if 0 < q then .fin (O.pow q c)
          else if q = 0 then (if 0 < c then .fin 0 else .pinf)
          else if c.den = 1 then .fin (q ^ c.num) else .nan
      | .nan => if q = 1 then .fin 1 else .nan
      | .pinf =>
          if q = 1 ∨ q = -1 then .fin 1
          else if -1 < q ∧ q < 1 then .fin 0 else .pinf
      | .ninf =>
          if q = 1 ∨ q = -1 then .fin 1
          else if -1 < q ∧ q < 1 then .pinf else .fin 0
  | .nan, e =>
      match e with
      | .fin c => if c = 0 then .fin 1 else .nan
      | _ => .nan
  | .pinf, e =>
      match e with
      | .fin c => if c = 0 then .fin 1 else if 0 < c then .pinf else .fin 0
      | .nan => .nan
      | .pinf => .pinf
      | .ninf => .fin 0
  | .ninf, e =>
      match e with
      | .fin c =>
          if c = 0 then .fin 1
          else if 0 < c then (if c.den = 1 ∧ c.num % 2 = 1 then .ninf else .pinf)
          else .fin 0
      | .nan => .nan
      | .pinf => .pinf
      | .ninf => .fin 0

/-- Arithmetic mean of a list of extended values (`torch.mean` along the last
axis). -/
def EV.meanL (l : List EV) : EV := (EV.sumL l).div (.fin (l.length : ℚ))

/-- `nanmean` from `pyiqa/archs/func_util.py` (lines 33-38), on one reduction
lane: entries where `torch.isnan` holds are replaced by `0`, the lane is
summed, and the sum is divided by the count of entries that are not NaN.
Note the source masks with `torch.isnan`, so `±inf` entries are neither
zeroed nor excluded from the count. -/
def nanmean (v : List EV) : EV :=
  (EV.sumL (v.map (fun e => if e.isnan then .fin 0 else e))).div
    (.fin ((v.filter (fun e => !e.isnan)).length : ℚ))

/-- The finite entries of a lane, in order. -/
def finPart (v : List EV) : List ℚ :=
  v.filterMap (fun e => match e with | .fin q => some q | _ => none)

/-- Unbiased standard deviation along a row (`torch.std(·, dim=1)`): square
root of the sum of squared deviations from the mean divided by `n - 1`. -/
def fwStd (O : RealO) (l : List EV) : EV :=
  let m := EV.meanL l
  EV.sqrtO O
    ((EV.sumL (l.map (fun v => (v.sub m).mul (v.sub m)))).div
      (.fin ((l.length : ℚ) - 1)))

/-- One Newton-Raphson update of the Weibull shape parameter for one row,
exactly the loop body of `fitweibull` (niqe_arch.py lines 54-68):
`f = ff/fg - f1 - 1/k`, `f' = (ff'/fg - (ff/fg * fg'/fg)) + 1/(k*k)` with
`fg' = ff`, and `k ← k - f/f'`. -/
def fwStep (O : RealO) (x : List ℚ) (lnx : List EV) (k : EV) : EV :=
  let x_k := x.map (fun xi => EV.powO O (.fin xi) k)
  let x_k_ln_x := List.zipWith EV.mul x_k lnx
  let ff := EV.sumL x_k_ln_x
  let fg := EV.sumL x_k
  let f1 := EV.meanL lnx
  let f := ((ff.div fg).sub f1).sub ((EV.fin 1).div k)
  let ffp := EV.sumL (List.zipWith EV.mul x_k_ln_x lnx)
  let fp := ((ffp.div fg).sub (((ff.div fg).mul ff).div fg)).add
    ((EV.fin 1).div (k.mul k))
  k.sub (f.div fp)

/-- The iteration of `fitweibull`: all rows of the batch are updated together
and the stopping criterion is `torch.abs(k - k_t_1).max().item() < eps` —
the maximum change over the WHOLE batch, not per row (niqe_arch.py line 69).
`eps = 1e-2` is the source's default. -/
def fwLoop (O : RealO) (rows : List (List ℚ)) (lnxs : List (List EV)) :
    ℕ → List EV → List EV
  | 0, ks => ks
  | fuel + 1, ks =>
    let knew := List.zipWith (fun rl k => fwStep O rl.1 rl.2 k) (rows.zip lnxs) ks
    let err := EV.maxL (List.zipWith (fun a b => (a.sub b).abs) knew ks)
    if err.ltb (.fin (1 / 100)) then knew else fwLoop O rows lnxs fuel knew

/-- `fitweibull` (niqe_arch.py lines 38-77) with the source defaults
`iters = 50`, `eps = 1e-2`: rows are batch items, `k` is initialised to
`1.2 / std(log x)` per row, iterated by `fwLoop`, and the scale is
`lam = mean(x ** k) ** (1/k)`.  The source performs no positivity check on
`x`; its docstring states the result "can be (NaN, NaN) if a fit is
impossible". -/
def fitweibull (O : RealO) (x : List (List ℚ)) : List EV × List EV :=
  let lnxs := x.map (fun r => r.map (fun v => EV.logO O (.fin v)))
  let k0 := lnxs.map (fun lr => (EV.fin (6 / 5)).div (fwStd O lr))
  let k := fwLoop O x lnxs 50 k0
  let lam := List.zipWith
    (fun r ki =>
      EV.powO O (EV.meanL (r.map (fun xi => EV.powO O (.fin xi) ki)))
        ((EV.fin 1).div ki)) x k
  (k, lam)

/-- Concrete oracle instantiation used by counterexamples: all real-valued
primitives return `0` except on the finitely many inputs the runs below
actually query, where they are pinned to explicit rationals standing for a
possible finite value of the real primitive. -/
def cexO : RealO :=
  ⟨fun q => if q = 2 then 1 else if q = 5 then 2 else if q = 99 then 2 / 5 else 0,
   fun q => if q = 1 / 2 then 14 / 55 else if q = 2 / 25 then 24 / 101 else 0,
   fun _ => 0,
   fun _ => 0,
   fun a _ => a,
   fun m => m,
   fun im => im⟩

/-- A single-channel map of a `(b, 1, h, w)` tensor: intensity at (row, col).
Out-of-range indices are never read by the embedded pipeline except through
explicit clamping (replicate padding). -/
def Img : Type := ℕ → ℕ → ℚ

/-- Machine epsilon of `torch.float32`, the `EPS` constant of
`pyiqa/archs/func_util.py` (line 12) and of `safe_sqrt`. -/
def epsQ : ℚ := (1 / 2) ^ 23

/-- Modelled from the spec: the padding helper `SimpleSamePadding2d` (from
`arch_util`, which is not among the analysed sources) in `replicate` mode
reproduces the MATLAB boundary convention (spec §4.1): reads at the image
border repeat the edge pixel, i.e. a (possibly negative) index is clamped
into `[0, n-1]`. -/
def clampIdx (n : ℕ) (z : ℤ) : ℕ := (max 0 (min z ((n : ℤ) - 1))).toNat

/-- 2-D correlation of an image with a square kernel under replicate
padding, evaluated at one output pixel; embeds
`F.conv2d(pad_func(img), kernel)` with `SimpleSamePadding2d(replicate)`.
`h`/`w` are the image height/width used for clamping. -/
def conv2dRep (K : List (List ℚ)) (h w : ℕ) (im : Img) : Img := fun i j =>
  ((K.enum).map (fun ar =>
    ((ar.2.enum).map (fun bv =>
      bv.2 * im (clampIdx h ((i : ℤ) + ar.1 - (K.length : ℤ) / 2))
             (clampIdx w ((j : ℤ) + bv.1 - (K.length : ℤ) / 2)))).sum)).sum

/-- Sum of all kernel entries. -/
def kernelSum (K : List (List ℚ)) : ℚ := (K.map List.sum).sum

/-- `normalize_img_with_guass` from `pyiqa/archs/func_util.py` (lines
76-95) with `padding='replicate'` (how both pipelines call it) and the
default stabiliser `C = 1`: local mean `mu` and local raw second moment
`std` by Gaussian correlation, `sigma = safe_sqrt(|std - mu²|)`
(`safe_sqrt x = sqrt (x + EPS)`), output `(img - mu) / (sigma + C)`.
The Gaussian kernel built by the external `fspecial_gauss` is passed in as
`K`. -/
def normalize_img_with_guass (O : RealO) (K : List (List ℚ)) (h w : ℕ)
    (im : Img) : Img := fun i j =>
  let mu := conv2dRep K h w im i j
  let std := conv2dRep K h w (fun a b => im a b ^ 2) i j
  let sigma := O.sqrt (|std - mu ^ 2| + epsQ)
  (im i j - mu) / (sigma + 1)

/-- The shape-parameter grid `torch.arange(0.2, 10 + 0.001, 0.001)` common
to `estimate_ggd_param` and `estimate_aggd_param`: the 9801 values
`0.2, 0.201, …, 10.0`. -/
def gamGrid : List ℚ :=
  (List.range 9801).map (fun i : ℕ => 1 / 5 + (i : ℚ) / 1000)

/-- Index of the first minimum of a list, accumulator form. -/
def argminGo : List ℚ → ℕ → ℕ → ℚ → ℕ
  | [], _, bi, _ => bi
  | v :: rest, i, bi, bv =>
      if v < bv then argminGo rest (i + 1) i v else argminGo rest (i + 1) bi bv

/-- `torch.argmin` over a vector: index of the first minimal entry
(`0` on the empty list, which torch rejects). -/
def argminIdx : List ℚ → ℕ
  | [] => 0
  | v :: rest => argminGo rest 1 0 v

/-- The nearest-table lookup shared by the two fitters: the grid entry at
the index of the first minimal table distance. -/
def gridLookup (l : List ℚ) : ℚ := gamGrid.getD (argminIdx l) 0

/-- `safe_sqrt` from `pyiqa/archs/func_util.py` (lines 51-58):
`sqrt (x + EPS)`. -/
def safe_sqrt (O : RealO) (x : ℚ) : ℚ := O.sqrt (x + epsQ)

/-- Mean of a list of rationals (0 on the empty list). -/
def meanQ (l : List ℚ) : ℚ := l.sum / (l.length : ℚ)

/-- `estimate_aggd_param` from `pyiqa/archs/func_util.py` (lines 187-227)
for one block of the batch, on the flattened block values `xs`:
one-sided standard deviations with `+ EPS` guarded counts, the normalised
asymmetry ratio `rhatnorm`, nearest-entry lookup of `α` in the `r_gam`
table over `gamGrid`, and `β = std · sqrt(exp(lgamma(1/α) - lgamma(3/α)))`.
Returns `(α, β_left, β_right)` (the `return_sigma=False` branch used by
`compute_feature`). -/
def estimate_aggd_param (O : RealO) (xs : List ℚ) : ℚ × ℚ × ℚ :=
  let r_gam := gamGrid.map (fun g =>
    O.exp (2 * O.lgamma (2 / g) - (O.lgamma (1 / g) + O.lgamma (3 / g))))
  let count_left : ℚ := ((xs.filter (fun x => x < 0)).length : ℚ)
  let count_right : ℚ := ((xs.filter (fun x => 0 < x)).length : ℚ)
  let left_std := safe_sqrt O
    ((xs.map (fun x => if x < 0 then x ^ 2 else 0)).sum / (count_left + epsQ))
  let right_std := safe_sqrt O
    ((xs.map (fun x => if 0 < x then x ^ 2 else 0)).sum / (count_right + epsQ))
  let gammahat := left_std / right_std
  let rhat := meanQ (xs.map (fun x => |x|)) ^ 2 / meanQ (xs.map (fun x => x ^ 2))
  let rhatnorm := (rhat * (gammahat ^ 3 + 1) * (gammahat + 1)) /
    (gammahat ^ 2 + 1) ^ 2
  let alpha := gridLookup (r_gam.map (fun r => |r - rhatnorm|))
  let bfac := O.sqrt (O.exp (O.lgamma (1 / alpha) - O.lgamma (3 / alpha)))
  (alpha, left_std * bfac, right_std * bfac)

/-- `estimate_ggd_param` from `pyiqa/archs/func_util.py` (lines 162-184)
for one block of the batch, on the flattened block values `xs`:
`σ² = mean(x²)`, `ρ = σ² / (mean |x|)²`, nearest-entry lookup of the shape
`γ` in the `r_table` over `gamGrid`; returns `(γ, σ)`. -/
def estimate_ggd_param (O : RealO) (xs : List ℚ) : ℚ × ℚ :=
  let r_table := gamGrid.map (fun g =>
    O.exp (O.lgamma (1 / g) + O.lgamma (3 / g) - 2 * O.lgamma (2 / g)))
  let sigma_sq := meanQ (xs.map (fun x => x ^ 2))
  let sigma := O.sqrt sigma_sq
  let E := meanQ (xs.map (fun x => |x|))
  let rho := sigma_sq / E ^ 2
  (gridLookup (r_table.map (fun r => |r - rho|)), sigma)

/-- The raw second moment `σ² = mean(x²)` of a block, the quantity whose
square root the `estimate_ggd_param` assertion tests. -/
def sigmaSqQ (xs : List ℚ) : ℚ := meanQ (xs.map (fun x => x ^ 2))

/-- The assertion guard of `estimate_ggd_param` (func_util.py lines
176-177): the `assert` FAILS exactly when
`torch.isclose(sigma, 0).all()` holds, i.e. when EVERY block of the batch
has `σ ≤ 1e-8` (`torch.isclose` default `atol = 1e-8`, `rtol·0 = 0`).
Since `σ = sqrt σ²≥ 0`, `σ ≤ 1e-8` is written equivalently as
`σ² ≤ 1e-16`, keeping the predicate exactly rational. -/
def ggdAssertTriggers (blocks : List (List ℚ)) : Bool :=
  blocks.all (fun xs => sigmaSqQ xs ≤ 1 / 10 ^ 16)

/-- Population variance of a list of values (used only to state that a
block is literally of zero variance). -/
def varQ (xs : List ℚ) : ℚ := meanQ (xs.map (fun x => (x - meanQ xs) ^ 2))

/-- `torch.roll(block, (s1, s2), dims=(2, 3))` on one `hb × wb` block:
entry `(i, j)` of the result is entry `((i - s1) mod hb, (j - s2) mod wb)`
of the input. -/
def rollBlk (s1 s2 : ℤ) (hb wb : ℕ) (blk : Img) : Img := fun i j =>
  blk (((i : ℤ) - s1).emod (hb : ℤ)).toNat (((j : ℤ) - s2).emod (wb : ℤ)).toNat

/-- The values of an `hb × wb` block flattened in row-major order (the
order is immaterial: the fitters only reduce over the block). -/
def blockVals (hb wb : ℕ) (blk : Img) : List ℚ :=
  ((List.range hb).map (fun i => (List.range wb).map (fun j => blk i j))).flatten

/-- The four pixel-shift directions of `compute_feature`
(niqe_arch.py line 98): horizontal, vertical, two diagonals. -/
def shifts4 : List (ℤ × ℤ) := [(0, 1), (1, 0), (1, 1), (1, -1)]

/-- `compute_feature` (niqe_arch.py lines 80-136) with `ilniqe = False`,
for one block of the batch: the AGGD fit of the block itself contributes
`[α, (β_l + β_r)/2]`, then for each of the four shifts the AGGD fit of the
element-wise product of the block with its rolled copy contributes
`[α, (β_r - β_l)·exp(lgamma(2/α) - lgamma(1/α)), β_l, β_r]` (Eq. 8 of the
NIQE paper; note the source applies no square root to the Γ-ratio). -/
def compute_feature_single (O : RealO) (hb wb : ℕ) (blk : Img) : List ℚ :=
  let p0 := estimate_aggd_param O (blockVals hb wb blk)
  [p0.1, (p0.2.1 + p0.2.2) / 2] ++
    (shifts4.map (fun s =>
      let pr := estimate_aggd_param O (blockVals hb wb
        (fun i j => blk i j * rollBlk s.1 s.2 hb wb blk i j))
      [pr.1, (pr.2.2 - pr.2.1) * O.exp (O.lgamma (2 / pr.1) - O.lgamma (1 / pr.1)),
       pr.2.1, pr.2.2])).flatten

/-- `compute_feature` applied to a whole batch of blocks: every torch
operation inside it reduces over the trailing (spatial) axes only, so the
batch dimension is mapped over. -/
def compute_feature (O : RealO) (hb wb : ℕ) (blocks : List Img) :
    List (List ℚ) := blocks.map (compute_feature_single O hb wb)

/-- Transpose of a rectangular list-of-rows matrix (used to embed
`torch.stack(feat).transpose(0, 1)`, which reorders the block-major stack
into batch-major order, and `transpose(1, 2)` before `torch_cov`). -/
def tList {α : Type} : List (List α) → List (List α)
  | [] => []
  | r :: rs =>
      match rs with
      | [] => r.map (fun a => [a])
      | _ :: _ => List.zipWith List.cons r (tList rs)

/-- The block visiting order of the `niqe` double loop (niqe_arch.py lines
171-179): `idx_w` outer, `idx_h` inner; entries are `(idx_w, idx_h)`. -/
def blockIdxList (nbh nbw : ℕ) : List (ℕ × ℕ) :=
  ((List.range nbw).map (fun wi => (List.range nbh).map (fun hi => (wi, hi)))).flatten

/-- The `(idx_w, idx_h)` block of a normalized map at the given scale:
rows `idx_h·bsH/scale + a`, columns `idx_w·bsW/scale + b` (the source slices
`idx_h * block_size_h // scale : (idx_h + 1) * block_size_h // scale`;
`scale ∈ {1, 2}` divides the default block size 96). -/
def subBlock (bsH bsW scale wi hi : ℕ) (im : Img) : Img := fun a b =>
  im (hi * bsH / scale + a) (wi * bsW / scale + b)

/-- Features of one scale of the `niqe` pipeline (niqe_arch.py lines
167-181): normalize every image of the batch, extract the per-block
feature vectors in loop order, and stack them batch-major
(`torch.stack(feat).transpose(0, 1)`): the result is indexed
`[batch][block][feature]`. -/
def niqeScaleFeats (O : RealO) (K : List (List ℚ)) (h w nbh nbw bsH bsW scale : ℕ)
    (imgs : List Img) : List (List (List ℚ)) :=
  let normed := imgs.map (normalize_img_with_guass O K h w)
  tList ((blockIdxList nbh nbw).map (fun p =>
    compute_feature O (bsH / scale) (bsW / scale)
      (normed.map (subBlock bsH bsW scale p.1 p.2))))

/-- `distparam = torch.cat(distparam, -1)` of the baseline pipeline
(niqe_arch.py line 187): the two scales' `(b, num_blocks, 18)` stacks are
concatenated along the LAST (feature) axis. -/
def niqeScaleConcat (d1 d2 : List (List (List ℚ))) : List (List (List ℚ)) :=
  List.zipWith (List.zipWith (· ++ ·)) d1 d2

/-- `distparam = torch.cat(distparam, dim=-1)` of the extended pipeline
(niqe_arch.py line 427, comment `b, block_num, feature_num`): also a
concatenation along the LAST (feature) axis. -/
def ilniqeScaleConcat (d1 d2 : List (List (List ℚ))) : List (List (List ℚ)) :=
  List.zipWith (List.zipWith (· ++ ·)) d1 d2

/-- Modelled from the spec: §4.4 says the extended pipeline concatenates
the two scales "along the block axis"; this definition follows those words
(concatenation along axis 1 of a `(b, num_blocks, feature_dim)` stack) so
it can be compared with `ilniqeScaleConcat`, which embeds the source. -/
def ilniqeScaleConcatSpec (d1 d2 : List (List (List ℚ))) : List (List (List ℚ)) :=
  List.zipWith (· ++ ·) d1 d2

/-- `torch_cov` from `pyiqa/archs/func_util.py` (lines 41-48) with the
default `rowvar=True`, `bias=False`: rows are variables, columns are
observations; rows are centered and the matrix `c·cᵀ/(n-1)` is formed,
`n` the number of observations (the length of a row). -/
def torch_cov (m : List (List ℚ)) : List (List ℚ) :=
  let factor : ℚ := 1 / (((m.headD []).length : ℚ) - 1)
  let centered := m.map (fun r => r.map (fun v => v - meanQ r))
  centered.map (fun r1 =>
    centered.map (fun r2 => (List.zipWith (· * ·) r1 r2).sum * factor))

/-- Dot product of two feature vectors. -/
def dotQ (u v : List ℚ) : ℚ := (List.zipWith (· * ·) u v).sum

/-- Matrix–vector product. -/
def matVec (A : List (List ℚ)) (v : List ℚ) : List ℚ :=
  A.map (fun r => dotQ r v)

/-- Entry-wise `(A + B) / 2` of two matrices. -/
def matHalfAdd (A B : List (List ℚ)) : List (List ℚ) :=
  List.zipWith (List.zipWith (fun a b => (a + b) / 2)) A B

/-- The per-item tail of `niqe` (niqe_arch.py lines 189-203) applied to one
batch item's `[block][feature]` matrix: `mu = nanmean(distparam, dim=1)`
(plain column means here — the ℚ model is NaN-free, and with no NaN
entries `nanmean` divides the plain column sums by the raw count),
`cov = torch_cov(rowsᵀ)`, `invcov = pinv((cov_pris + cov) / 2)`,
`quality = sqrt(diffᵀ · invcov · diff)` with `diff = mu_pris - mu`. -/
def niqeItemScore (O : RealO) (muP : List ℚ) (covP : List (List ℚ))
    (rows : List (List ℚ)) : ℚ :=
  let mu_d := (tList rows).map meanQ
  let covD := torch_cov (tList rows)
  let ic := O.pinv (matHalfAdd covP covD)
  let diff := List.zipWith (fun a b => a - b) muP mu_d
  O.sqrt (dotQ diff (matVec ic diff))

/-- `niqe` (niqe_arch.py lines 139-203) with the default block size
96 × 96: crop the image to a whole number of blocks, extract the stacked
block features at scale 1, downsample (`img = imresize(img/255, 0.5) * 255`
per batch item via the external-resize oracle), extract at scale 2,
concatenate the scales along the feature axis, and score each batch item.
`muP`/`covP` are the pristine-model mean and covariance (identical for
every batch item — `calculate_niqe` repeats one row). -/
def niqe (O : RealO) (K : List (List ℚ)) (muP : List ℚ) (covP : List (List ℚ))
    (h w : ℕ) (imgs : List Img) : List ℚ :=
  let nbh := h / 96
  let nbw := w / 96
  let d1 := niqeScaleFeats O K (nbh * 96) (nbw * 96) nbh nbw 96 96 1 imgs
  let imgs2 := imgs.map (fun im => fun i j => 255 * O.half (fun a b => im a b / 255) i j)
  let d2 := niqeScaleFeats O K (nbh * 96 / 2) (nbw * 96 / 2) nbh nbw 96 96 2 imgs2
  (niqeScaleConcat d1 d2).map (niqeItemScore O muP covP)

/-- Python slicing `img[..., b:-b, b:-b]` on an image-as-index-function:
the pre-cropped image reads the original at offset `b`. -/
def cropImg (b : ℕ) (im : Img) : Img := fun i j => im (i + b) (j + b)

/-- Python slicing `m[b:-b]` on concrete (list-of-rows) image data, rows
and columns. -/
def cropMat (b : ℕ) (m : List (List ℚ)) : List (List ℚ) :=
  ((m.drop b).take (m.length - 2 * b)).map
    (fun r => (r.drop b).take (r.length - 2 * b))

/-- `calculate_niqe` (niqe_arch.py lines 206-240) for luma input (the
`test_y_channel` colour conversion only fires on 3-channel input and luma
input skips it): when `crop_border ≠ 0` the image is sliced
`[..., b:-b, b:-b]` — height and width shrink by `2b` — and `niqe` runs on
the cropped view. -/
def calculate_niqe (O : RealO) (K : List (List ℚ)) (muP : List ℚ)
    (covP : List (List ℚ)) (crop_border h w : ℕ) (imgs : List Img) : List ℚ :=
  if crop_border ≠ 0 then
    niqe O K muP covP (h - 2 * crop_border) (w - 2 * crop_border)
      (imgs.map (cropImg crop_border))
  else niqe O K muP covP h w imgs

/-- A `rows × cols` rectangular shape predicate for list matrices. -/
def HasShape2 (m : List (List ℚ)) (rows cols : ℕ) : Prop :=
  m.length = rows ∧ ∀ r ∈ m, r.length = cols

/-- A `(b, n, f)` shape predicate for a stacked feature tensor. -/
def HasShape3 (t : List (List (List ℚ))) (b n f : ℕ) : Prop :=
  t.length = b ∧ ∀ m ∈ t, HasShape2 m n f

instance (m : List (List ℚ)) (rows cols : ℕ) : Decidable (HasShape2 m rows cols) := by
  unfold HasShape2; infer_instance

instance (t : List (List (List ℚ))) (b n f : ℕ) : Decidable (HasShape3 t b n f) := by
  unfold HasShape3; infer_instance

/-- The all-zero oracle (with identity `pinv` and resize): a concrete
`RealO` instantiation used by witnesses. -/
def oracle0 : RealO :=
  ⟨fun _ => 0, fun _ => 0, fun _ => 0, fun _ => 0, fun _ _ => 0,
   fun m => m, fun im => im⟩

/-- The per-shift "mean" statistic exactly as `compute_feature` computes it
(niqe_arch.py lines 103-104): `(β_r - β_l) * (lgamma(2/α) - lgamma(1/α)).exp()`
in real semantics, where `torch.lgamma = log ∘ Γ` on positive arguments. -/
noncomputable def pairwiseMeanCode (alpha beta_l beta_r : ℝ) : ℝ :=
  (beta_r - beta_l) *
    Real.exp (Real.log (Real.Gamma (2 / alpha)) - Real.log (Real.Gamma (1 / alpha)))

/-- Modelled from the spec: §4.3 states the derived mean statistic is
`(β_right - β_left) · sqrt(Γ(2/α)/Γ(1/α))` — this definition follows the
spec's words so it can be compared with `pairwiseMeanCode`, which embeds
the source expression. -/
noncomputable def pairwiseMeanSpec (alpha beta_l beta_r : ℝ) : ℝ :=
  (beta_r - beta_l) * Real.sqrt (Real.Gamma (2 / alpha) / Real.Gamma (1 / alpha))

/-- Evaluation lemmata for the concrete Weibull runs: logs of the two rows. -/
lemma cexLn : ([[2, 5], [1, 99]] : List (List ℚ)).map
    (fun r => r.map (fun v => EV.logO cexO (.fin v))) =
    [[.fin 1, .fin 2], [.fin 0, .fin (2 / 5)]] := by
  norm_num [cexO, EV.logO]

/-- Standard deviation of the logs of the first row, via the oracle. -/
lemma cexStd1 : fwStd cexO [.fin 1, .fin 2] = .fin (14 / 55) := by
  norm_num [fwStd, cexO, EV.sqrtO, EV.sumL, EV.meanL, EV.sub, EV.add, EV.mul,
    EV.div, EV.neg]

/-- Standard deviation of the logs of the second row, via the oracle. -/
lemma cexStd2 : fwStd cexO [.fin 0, .fin (2 / 5)] = .fin (24 / 101) := by
  norm_num [fwStd, cexO, EV.sqrtO, EV.sumL, EV.meanL, EV.sub, EV.add, EV.mul,
    EV.div, EV.neg]

/-- First Newton update of row 1. -/
lemma cexStep11 : fwStep cexO [2, 5] [.fin 1, .fin 2] (.fin (33 / 7)) =
    .fin (875589 / 186074) := by
  norm_num [fwStep, cexO, EV.powO, EV.add, EV.sub, EV.mul, EV.div, EV.neg,
    EV.sumL, EV.meanL]

/-- First Newton update of row 2. -/
lemma cexStep12 : fwStep cexO [1, 99] [.fin 0, .fin (2 / 5)] (.fin (101 / 20)) =
    .fin (2652754799 / 520197980) := by
  norm_num [fwStep, cexO, EV.powO, EV.add, EV.sub, EV.mul, EV.div, EV.neg,
    EV.sumL, EV.meanL]

/-- Second Newton update of row 1. -/
lemma cexStep21 : fwStep cexO [2, 5] [.fin 1, .fin 2] (.fin (875589 / 186074)) =
    .fin (8185847938561895745 / 1742232094817429516) := by
  norm_num [fwStep, cexO, EV.powO, EV.add, EV.sub, EV.mul, EV.div, EV.neg,
    EV.sumL, EV.meanL]

/-- Second Newton update of row 2. -/
lemma cexStep22 : fwStep cexO [1, 99] [.fin 0, .fin (2 / 5)]
    (.fin (2652754799 / 520197980)) =
    .fin (46736059808891641400233606040501 / 9160449656616677028961190208020) := by
  norm_num [fwStep, cexO, EV.powO, EV.add, EV.sub, EV.mul, EV.div, EV.neg,
    EV.sumL, EV.meanL]

/-- Absolute change of row 1 at the first iteration. -/
lemma cexAbs11 : (EV.sub (.fin (875589 / 186074)) (.fin (33 / 7))).abs =
    EV.fin (231 / 26582) := by
  norm_num [EV.sub, EV.add, EV.neg, EV.abs]

/-- Absolute change of row 2 at the first iteration. -/
lemma cexAbs12 : (EV.sub (.fin (2652754799 / 520197980)) (.fin (101 / 20))).abs =
    EV.fin (1287750 / 26009899) := by
  norm_num [EV.sub, EV.add, EV.neg, EV.abs]

/-- Absolute change of row 1 at the second iteration. -/
lemma cexAbs21 : (EV.sub (.fin (8185847938561895745 / 1742232094817429516))
    (.fin (875589 / 186074))).abs = EV.fin (133191971913 / 18726228219068) := by
  norm_num [EV.sub, EV.add, EV.neg, EV.abs]

/-- Absolute change of row 2 at the second iteration. -/
lemma cexAbs22 : (EV.sub
    (.fin (46736059808891641400233606040501 / 9160449656616677028961190208020))
    (.fin (2652754799 / 520197980))).abs =
    EV.fin (42782202879378837750 / 17609544844093160509699) := by
  norm_num [EV.sub, EV.add, EV.neg, EV.abs]


lemma cexKnew1 : List.zipWith (fun rl k => fwStep cexO rl.1 rl.2 k)
    (([[2, 5], [1, 99]] : List (List ℚ)).zip [[.fin 1, .fin 2], [.fin 0, .fin (2 / 5)]])
    [.fin (33 / 7), .fin (101 / 20)] =
    [.fin (875589 / 186074), .fin (2652754799 / 520197980)] := by
  simp only [List.zip, List.zipWith]
  rw [cexStep11, cexStep12]

lemma cexErrB1 : EV.maxL (List.zipWith (fun a b => (a.sub b).abs)
    [EV.fin (875589 / 186074), EV.fin (2652754799 / 520197980)]
    [.fin (33 / 7), .fin (101 / 20)]) = EV.fin (1287750 / 26009899) := by
  simp only [List.zipWith, cexAbs11, cexAbs12, EV.maxL, List.foldr, EV.maxv, EV.ltb]
  norm_num

lemma cexLoopB1 : fwLoop cexO [[2, 5], [1, 99]] [[.fin 1, .fin 2], [.fin 0, .fin (2 / 5)]] 50
    [.fin (33 / 7), .fin (101 / 20)] =
    fwLoop cexO [[2, 5], [1, 99]] [[.fin 1, .fin 2], [.fin 0, .fin (2 / 5)]] 49
    [.fin (875589 / 186074), .fin (2652754799 / 520197980)] := by
  rw [show (50 : ℕ) = 49 + 1 from rfl, fwLoop, cexKnew1, cexErrB1]
  rw [show EV.ltb (.fin (1287750 / 26009899)) (.fin (1 / 100)) = false by
    simp only [EV.ltb]; norm_num]
  simp

lemma cexKnew2 : List.zipWith (fun rl k => fwStep cexO rl.1 rl.2 k)
    (([[2, 5], [1, 99]] : List (List ℚ)).zip [[.fin 1, .fin 2], [.fin 0, .fin (2 / 5)]])
    [.fin (875589 / 186074), .fin (2652754799 / 520197980)] =
    [.fin (8185847938561895745 / 1742232094817429516),
     .fin (46736059808891641400233606040501 / 9160449656616677028961190208020)] := by
  simp only [List.zip, List.zipWith]
  rw [cexStep21, cexStep22]

lemma cexErrB2 : EV.maxL (List.zipWith (fun a b => (a.sub b).abs)
    [EV.fin (8185847938561895745 / 1742232094817429516),
     EV.fin (46736059808891641400233606040501 / 9160449656616677028961190208020)]
    [.fin (875589 / 186074), .fin (2652754799 / 520197980)]) =
    EV.fin (133191971913 / 18726228219068) := by
  simp only [List.zipWith, cexAbs21, cexAbs22, EV.maxL, List.foldr, EV.maxv, EV.ltb]
  norm_num

lemma cexLoopB2 : fwLoop cexO [[2, 5], [1, 99]] [[.fin 1, .fin 2], [.fin 0, .fin (2 / 5)]] 49
    [.fin (875589 / 186074), .fin (2652754799 / 520197980)] =
    [.fin (8185847938561895745 / 1742232094817429516),
     .fin (46736059808891641400233606040501 / 9160449656616677028961190208020)] := by
  rw [show (49 : ℕ) = 48 + 1 from rfl, fwLoop, cexKnew2, cexErrB2]
  rw [show EV.ltb (.fin (133191971913 / 18726228219068)) (.fin (1 / 100)) = true by
    simp only [EV.ltb]; norm_num]
  simp

lemma cexKnewA : List.zipWith (fun rl k => fwStep cexO rl.1 rl.2 k)
    (([[2, 5]] : List (List ℚ)).zip [[.fin 1, .fin 2]]) [.fin (33 / 7)] =
    [.fin (875589 / 186074)] := by
  simp only [List.zip, List.zipWith]
  rw [cexStep11]

lemma cexErrA : EV.maxL (List.zipWith (fun a b => (a.sub b).abs)
    [EV.fin (875589 / 186074)] [.fin (33 / 7)]) = EV.fin (231 / 26582) := by
  simp only [List.zipWith, cexAbs11, EV.maxL, List.foldr, EV.maxv, EV.ltb]
  norm_num

lemma cexLoopA : fwLoop cexO [[2, 5]] [[.fin 1, .fin 2]] 50 [.fin (33 / 7)] =
    [.fin (875589 / 186074)] := by
  rw [show (50 : ℕ) = 49 + 1 from rfl, fwLoop, cexKnewA, cexErrA]
  rw [show EV.ltb (.fin (231 / 26582)) (.fin (1 / 100)) = true by
    simp only [EV.ltb]; norm_num]
  simp

lemma cexBatch : (fitweibull cexO [[2, 5], [1, 99]]).1 =
    [.fin (8185847938561895745 / 1742232094817429516),
     .fin (46736059808891641400233606040501 / 9160449656616677028961190208020)] := by
  show fwLoop cexO _ _ 50 _ = _
  rw [cexLn]
  simp only [List.map]
  rw [cexStd1, cexStd2]
  rw [show EV.div (.fin (6 / 5)) (.fin (14 / 55)) = .fin (33 / 7) by
    simp only [EV.div]; norm_num]
  rw [show EV.div (.fin (6 / 5)) (.fin (24 / 101)) = .fin (101 / 20) by
    simp only [EV.div]; norm_num]
  rw [cexLoopB1, cexLoopB2]

lemma cexAlone : (fitweibull cexO [[2, 5]]).1 = [.fin (875589 / 186074)] := by
  show fwLoop cexO _ _ 50 _ = _
  rw [show ([[2, 5]] : List (List ℚ)).map
      (fun r => r.map (fun v => EV.logO cexO (.fin v))) = [[.fin 1, .fin 2]] by
    norm_num [cexO, EV.logO]]
  simp only [List.map]
  rw [cexStd1]
  rw [show EV.div (.fin (6 / 5)) (.fin (14 / 55)) = .fin (33 / 7) by
    simp only [EV.div]; norm_num]
  rw [cexLoopA]

/-- A Newton step maps a NaN shape parameter to NaN (the update ends in
`k - f/f'` and subtraction propagates NaN). -/
lemma fwStep_nan (O : RealO) (x : List ℚ) (lnx : List EV) :
    fwStep O x lnx .nan = .nan := rfl

/-- Adding NaN on the right gives NaN whatever the left operand is. -/
lemma ev_add_nan (a : EV) : a.add .nan = .nan := by cases a <;> rfl

/-- A sum over a lane containing a NaN is NaN. -/
lemma sumL_nan {l : List EV} (h : EV.nan ∈ l) : EV.sumL l = .nan := by
  induction l with
  | nil => simp at h
  | cons a t ih =>
      rcases List.mem_cons.mp h with rfl | ht
      · rfl
      · show EV.add a (EV.sumL t) = .nan
        rw [ih ht, ev_add_nan]

/-- A sum over a lane with no NaN and no `+inf` is finite or `-inf`. -/
lemma sumL_fin_or_ninf {l : List EV} (h1 : EV.nan ∉ l) (h2 : EV.pinf ∉ l) :
    (∃ q, EV.sumL l = .fin q) ∨ EV.sumL l = .ninf := by
  induction l with
  | nil => exact Or.inl ⟨0, rfl⟩
  | cons a t ih =>
      have h1' : EV.nan ∉ t := fun hm => h1 (List.mem_cons_of_mem _ hm)
      have h2' : EV.pinf ∉ t := fun hm => h2 (List.mem_cons_of_mem _ hm)
      show (∃ q, EV.add a (EV.sumL t) = .fin q) ∨ EV.add a (EV.sumL t) = .ninf
      cases a with
      | nan => exact absurd (List.mem_cons_self _ _) h1
      | pinf => exact absurd (List.mem_cons_self _ _) h2
      | fin q =>
          rcases ih h1' h2' with ⟨r, hr⟩ | hr
          · rw [hr]; exact Or.inl ⟨q + r, rfl⟩
          · rw [hr]; exact Or.inr rfl
      | ninf =>
          rcases ih h1' h2' with ⟨r, hr⟩ | hr
          · rw [hr]; exact Or.inr rfl
          · rw [hr]; exact Or.inr rfl

/-- A sum over a lane with no NaN and no `+inf` but at least one `-inf`
is `-inf` (the `log 0 = -inf` path of the Weibull fitter). -/
lemma sumL_ninf {l : List EV} (h1 : EV.nan ∉ l) (h2 : EV.pinf ∉ l)
    (h3 : EV.ninf ∈ l) : EV.sumL l = .ninf := by
  induction l with
  | nil => simp at h3
  | cons a t ih =>
      have h1' : EV.nan ∉ t := fun hm => h1 (List.mem_cons_of_mem _ hm)
      have h2' : EV.pinf ∉ t := fun hm => h2 (List.mem_cons_of_mem _ hm)
      show EV.add a (EV.sumL t) = .ninf
      rcases List.mem_cons.mp h3 with rfl | ht
      · rcases sumL_fin_or_ninf h1' h2' with ⟨r, hr⟩ | hr <;> rw [hr] <;> rfl
      · rw [ih h1' h2' ht]
        cases a with
        | nan => exact absurd (List.mem_cons_self _ _) h1
        | pinf => exact absurd (List.mem_cons_self _ _) h2
        | fin q => rfl
        | ninf => rfl

/-- The standard deviation of a lane is NaN as soon as the lane contains a
NaN (negative input: `log < 0` is NaN, poisoning the mean and every
deviation) or, with no NaN and no `+inf`, contains a `-inf` (zero input:
`log 0 = -inf` makes the mean `-inf`, and the deviation at that very entry
is `-inf - (-inf) = NaN`). -/
lemma fwStd_nan (O : RealO) (l : List EV)
    (h : EV.nan ∈ l ∨ (EV.nan ∉ l ∧ EV.pinf ∉ l ∧ EV.ninf ∈ l)) :
    fwStd O l = .nan := by
  have hdev : EV.nan ∈
      l.map (fun v => (v.sub (EV.meanL l)).mul (v.sub (EV.meanL l))) := by
    rcases h with hmem | ⟨h1, h2, h3⟩
    · exact List.mem_map.mpr ⟨.nan, hmem, rfl⟩
    · have hmean : EV.meanL l = .ninf := by
        unfold EV.meanL
        rw [sumL_ninf h1 h2 h3]
        show EV.div .ninf (.fin _) = .ninf
        simp [EV.div, Nat.cast_nonneg]
      exact List.mem_map.mpr ⟨.ninf, h3, by rw [hmean]; rfl⟩
  simp only [fwStd]
  rw [sumL_nan hdev]
  rfl

/-- One unfolding of the Weibull iteration. -/
lemma fwLoop_succ (O : RealO) (rows : List (List ℚ)) (lnxs : List (List EV))
    (m : ℕ) (ks : List EV) :
    fwLoop O rows lnxs (m + 1) ks =
      if (EV.maxL (List.zipWith (fun a b => (a.sub b).abs)
            (List.zipWith (fun rl k => fwStep O rl.1 rl.2 k) (rows.zip lnxs) ks)
            ks)).ltb (.fin (1 / 100)) then
        List.zipWith (fun rl k => fwStep O rl.1 rl.2 k) (rows.zip lnxs) ks
      else
        fwLoop O rows lnxs m
          (List.zipWith (fun rl k => fwStep O rl.1 rl.2 k) (rows.zip lnxs) ks) := rfl

/-- A NaN row of the iteration state stays NaN whatever the rest of the
batch does and whenever the batch-global stopping test fires: every
update maps NaN to NaN, so row `i` ends at NaN no matter how many
iterations run. -/
lemma fwLoop_nan_row (O : RealO) (rows : List (List ℚ)) (lnxs : List (List EV))
    (i : ℕ) (x : List ℚ) (lnx : List EV) (hx : rows[i]? = some x)
    (hl : lnxs[i]? = some lnx) :
    ∀ (fuel : ℕ) (ks : List EV), ks[i]? = some .nan →
      (fwLoop O rows lnxs fuel ks)[i]? = some .nan := by
  intro fuel
  induction fuel with
  | zero => intro ks hk; exact hk
  | succ m ih =>
      intro ks hk
      have hknew : (List.zipWith (fun rl k => fwStep O rl.1 rl.2 k)
          (rows.zip lnxs) ks)[i]? = some .nan := by
        rw [List.getElem?_zipWith, List.zip_eq_zipWith, List.getElem?_zipWith,
          hx, hl, hk]
        rfl
      rw [fwLoop_succ]
      split
      · exact hknew
      · exact ih _ hknew

/-- Structural unfolding of `fitweibull`: the shape vector is the iterated
state, the scale vector is `mean(x ** k) ** (1/k)` row by row. -/
lemma fitweibull_eq (O : RealO) (rows : List (List ℚ)) :
    fitweibull O rows =
      (fwLoop O rows (rows.map (fun r => r.map (fun v => EV.logO O (.fin v)))) 50
        ((rows.map (fun r => r.map (fun v => EV.logO O (.fin v)))).map
          (fun lr => (EV.fin (6 / 5)).div (fwStd O lr))),
       List.zipWith
        (fun r ki =>
          EV.powO O (EV.meanL (r.map (fun xi => EV.powO O (.fin xi) ki)))
            ((EV.fin 1).div ki)) rows
        (fwLoop O rows (rows.map (fun r => r.map (fun v => EV.logO O (.fin v)))) 50
          ((rows.map (fun r => r.map (fun v => EV.logO O (.fin v)))).map
            (fun lr => (EV.fin (6 / 5)).div (fwStd O lr))))) := rfl

/-- Zipping two maps over the same list is a map of the combined function. -/
lemma zipWith_map_same {α β γ δ : Type} (f : β → γ → δ) (g : α → β) (h : α → γ)
    (xs : List α) :
    List.zipWith f (xs.map g) (xs.map h) = xs.map (fun x => f (g x) (h x)) := by
  induction xs with
  | nil => rfl
  | cons a t ih => simp [ih]

/-- Transposing a block-major matrix of per-batch-item rows yields the
batch-major matrix: the list-level content of
`torch.stack(feat).transpose(0, 1)` acting on per-block batched results. -/
lemma tList_map_map {α β γ : Type} (bs : List β) (xs : List γ) (F : β → γ → α)
    (hb : bs ≠ []) :
    tList (bs.map (fun b => xs.map (F b))) =
      xs.map (fun x => bs.map (fun b => F b x)) := by
  induction bs with
  | nil => exact absurd rfl hb
  | cons b bs ih =>
      cases bs with
      | nil => simp [tList]
      | cons b' bs' =>
          have ih' := ih (by simp)
          simp only [List.map_cons] at ih' ⊢
          rw [show tList (xs.map (F b) :: xs.map (F b') ::
                bs'.map (fun b => xs.map (F b))) =
              List.zipWith List.cons (xs.map (F b))
                (tList (xs.map (F b') :: bs'.map (fun b => xs.map (F b)))) from rfl]
          rw [ih', zipWith_map_same]

/-- With at least one block, the stacked per-scale features are an
independent map over the batch items. -/
lemma niqeScaleFeats_eq_map (O : RealO) (K : List (List ℚ))
    (h w nbh nbw bsH bsW scale : ℕ) (imgs : List Img)
    (hB : blockIdxList nbh nbw ≠ []) :
    niqeScaleFeats O K h w nbh nbw bsH bsW scale imgs =
      imgs.map (fun im => (blockIdxList nbh nbw).map (fun p =>
        compute_feature_single O (bsH / scale) (bsW / scale)
          (subBlock bsH bsW scale p.1 p.2 (normalize_img_with_guass O K h w im)))) := by
  unfold niqeScaleFeats compute_feature
  simp only [List.map_map]
  exact tList_map_map _ _ _ hB

/-- Correlating a constant map against any kernel yields `kernelSum K · c`
at every pixel (replicate padding reads the same constant everywhere). -/
lemma conv2dRep_const (K : List (List ℚ)) (h w : ℕ) (c : ℚ) (i j : ℕ) :
    conv2dRep K h w (fun _ _ => c) i j = kernelSum K * c := by
  unfold conv2dRep kernelSum
  simp only [List.sum_map_mul_right, List.enum_map_snd]
  have hcols : K.enum.map (fun ar : ℕ × List ℚ => ar.2.sum) = K.map List.sum := by
    rw [show (fun ar : ℕ × List ℚ => ar.2.sum) = List.sum ∘ Prod.snd from rfl,
      ← List.map_map, List.enum_map_snd]
  rw [hcols]

/-- The accumulator argmin returns either the running best index or the
index of some later element; in all cases it stays below any bound that
covers both. -/
lemma argminGo_lt (l : List ℚ) (i bi : ℕ) (bv : ℚ) (N : ℕ)
    (h1 : bi < N) (h2 : i + l.length ≤ N) : argminGo l i bi bv < N := by
  induction l generalizing i bi bv with
  | nil => simpa [argminGo] using h1
  | cons v rest ih =>
      simp only [argminGo]
      by_cases hv : v < bv
      · simp only [hv, if_true]
        exact ih (i + 1) i v (by simp at h2; omega) (by simp at h2; omega)
      · simp only [hv, if_false]
        exact ih (i + 1) bi bv h1 (by simp at h2; omega)

/-- `argminIdx` of a non-empty list is a valid index. -/
lemma argminIdx_lt (l : List ℚ) (hl : l ≠ []) : argminIdx l < l.length := by
  cases l with
  | nil => exact absurd rfl hl
  | cons v rest =>
      simp only [argminIdx, List.length_cons]
      exact argminGo_lt rest 1 0 v _ (by omega) (by omega)

/-- The shape grid has 9801 entries. -/
lemma gamGrid_length : gamGrid.length = 9801 := by
  unfold gamGrid
  rw [List.length_map, List.length_range]

/-- The `k`-th grid entry is `0.2 + k/1000`. -/
lemma gamGrid_getD (k : ℕ) (hk : k < 9801) :
    gamGrid.getD k 0 = 1 / 5 + (k : ℚ) / 1000 := by
  have hlen : k < gamGrid.length := by rw [gamGrid_length]; exact hk
  rw [List.getD_eq_getElem _ _ hlen]
  unfold gamGrid
  simp

/-- Every grid entry lies in the closed interval `[0.2, 10]`. -/
lemma gamGrid_getD_bounds (k : ℕ) (hk : k < 9801) :
    1 / 5 ≤ gamGrid.getD k 0 ∧ gamGrid.getD k 0 ≤ 10 := by
  rw [gamGrid_getD k hk]
  have hk' : (k : ℚ) ≤ 9800 := by exact_mod_cast Nat.lt_succ_iff.mp hk
  constructor
  · have : (0 : ℚ) ≤ (k : ℚ) / 1000 := by positivity
    linarith
  · have : (k : ℚ) / 1000 ≤ 9800 / 1000 := by linarith
    linarith

/-- Zero-filling the NaN entries and summing yields the plain sum of the
finite entries, provided no infinities are present. -/
lemma sumL_nanfill (v : List EV) (hp : EV.pinf ∉ v) (hn : EV.ninf ∉ v) :
    EV.sumL (v.map (fun e => if e.isnan then .fin 0 else e)) =
      .fin (finPart v).sum := by
  induction v with
  | nil => rfl
  | cons e t ih =>
      have hp' : EV.pinf ∉ t := fun hmem => hp (List.mem_cons_of_mem _ hmem)
      have hn' : EV.ninf ∉ t := fun hmem => hn (List.mem_cons_of_mem _ hmem)
      cases e with
      | fin q =>
          simp only [List.map_cons, EV.isnan, EV.sumL, List.foldr] at ih ⊢
          rw [ih hp' hn']
          simp [finPart, EV.add]
      | nan =>
          simp only [List.map_cons, EV.isnan, EV.sumL, List.foldr] at ih ⊢
          rw [ih hp' hn']
          simp [finPart, EV.add]
      | pinf => exact absurd (List.mem_cons_self _ _) hp
      | ninf => exact absurd (List.mem_cons_self _ _) hn

/-- Counting the non-NaN entries counts the finite entries, provided no
infinities are present. -/
lemma count_nanfill (v : List EV) (hp : EV.pinf ∉ v) (hn : EV.ninf ∉ v) :
    (v.filter (fun e => !e.isnan)).length = (finPart v).length := by
  induction v with
  | nil => rfl
  | cons e t ih =>
      have hp' : EV.pinf ∉ t := fun hmem => hp (List.mem_cons_of_mem _ hmem)
      have hn' : EV.ninf ∉ t := fun hmem => hn (List.mem_cons_of_mem _ hmem)
      cases e with
      | fin q =>
          rw [List.filter_cons, if_pos (show (!(EV.fin q).isnan) = true from rfl)]
          rw [show finPart (EV.fin q :: t) = q :: finPart t from rfl]
          simp only [List.length_cons]
          rw [ih hp' hn']
      | nan =>
          rw [List.filter_cons, if_neg (by decide)]
          rw [show finPart (EV.nan :: t) = finPart t from rfl]
          exact ih hp' hn'
      | pinf => exact absurd (List.mem_cons_self _ _) hp
      | ninf => exact absurd (List.mem_cons_self _ _) hn

/-- An element of `zipWith f l1 l2` is `f a b` for members `a`, `b` of the
two lists. -/
lemma mem_zipWith_exists {α β γ : Type} {f : α → β → γ} {c : γ}
    {l1 : List α} {l2 : List β} (h : c ∈ List.zipWith f l1 l2) :
    ∃ a b, a ∈ l1 ∧ b ∈ l2 ∧ c = f a b := by
  induction l1 generalizing l2 with
  | nil => simp at h
  | cons x t ih =>
      cases l2 with
      | nil => simp at h
      | cons y s =>
          simp only [List.zipWith, List.mem_cons] at h
          rcases h with h | h
          · exact ⟨x, y, by simp, by simp, h⟩
          · obtain ⟨a, b, ha, hb, hc⟩ := ih h
            exact ⟨a, b, List.mem_cons_of_mem _ ha, List.mem_cons_of_mem _ hb, hc⟩

/-- Row-wise concatenation of two rectangular matrices with equal row
counts concatenates the column dimensions. -/
lemma hasShape2_zipWith_append {m1 m2 : List (List ℚ)} {n f1 f2 : ℕ}
    (h1 : HasShape2 m1 n f1) (h2 : HasShape2 m2 n f2) :
    HasShape2 (List.zipWith (· ++ ·) m1 m2) n (f1 + f2) := by
  obtain ⟨hl1, hr1⟩ := h1
  obtain ⟨hl2, hr2⟩ := h2
  constructor
  · rw [List.length_zipWith, hl1, hl2, Nat.min_self]
  · intro r hr
    obtain ⟨a, b, ha, hb, rfl⟩ := mem_zipWith_exists hr
    rw [List.length_append, hr1 a ha, hr2 b hb]

/-- Slicing `[b:-b]` on both axes of an `h × w` matrix (with `2b ≤ h`,
`2b ≤ w`) leaves exactly an `(h - 2b) × (w - 2b)` matrix. -/
lemma cropMat_shape {m : List (List ℚ)} {h w b : ℕ}
    (hm : HasShape2 m h w) (hh : 2 * b ≤ h) (hw : 2 * b ≤ w) :
    HasShape2 (cropMat b m) (h - 2 * b) (w - 2 * b) := by
  obtain ⟨hl, hr⟩ := hm
  constructor
  · simp only [cropMat, List.length_map, List.length_take, List.length_drop, hl]
    omega
  · intro r hmem
    simp only [cropMat, List.mem_map] at hmem
    obtain ⟨r0, hr0, rfl⟩ := hmem
    have hr0m : r0 ∈ m :=
      List.drop_subset _ _ (List.take_subset _ _ hr0)
    simp only [List.length_take, List.length_drop, hr r0 hr0m]
    omega

/-- C1 counterexample: on concrete `(1, 1, 1)`-shaped per-scale stacks, the
extended pipeline's scale concatenation (`torch.cat(distparam, dim=-1)`,
niqe_arch.py line 427) is a feature-axis concatenation and differs from the
block-axis concatenation the spec prescribes for it. -/
theorem C1_counterexample :
    ilniqeScaleConcat [[[1]]] [[[2]]] ≠ ilniqeScaleConcatSpec [[[1]]] [[[2]]] := by
  decide

/-- C1 (amended): both pipelines concatenate the two scales along the LAST
(feature) axis: on `(b, n, f1)` and `(b, n, f2)` stacks the extended
pipeline's concatenation preserves the batch and block counts and adds the
feature dimensions, and it is literally the same operation as the baseline
pipeline's `torch.cat(distparam, -1)`. -/
theorem C1_scale_concat (d1 d2 : List (List (List ℚ))) (b n f1 f2 : ℕ)
    (h1 : HasShape3 d1 b n f1) (h2 : HasShape3 d2 b n f2) :
    HasShape3 (ilniqeScaleConcat d1 d2) b n (f1 + f2) ∧
      ilniqeScaleConcat d1 d2 = niqeScaleConcat d1 d2 := by
  obtain ⟨hl1, hm1⟩ := h1
  obtain ⟨hl2, hm2⟩ := h2
  refine ⟨⟨?_, ?_⟩, rfl⟩
  · rw [ilniqeScaleConcat, List.length_zipWith, hl1, hl2, Nat.min_self]
  · intro m hm
    obtain ⟨a, b', ha, hb, rfl⟩ := mem_zipWith_exists hm
    exact hasShape2_zipWith_append (hm1 a ha) (hm2 b' hb)

/-- C1 witness: the amended statement at the concrete stacks of the
counterexample. -/
theorem C1_witness :
    HasShape3 (ilniqeScaleConcat [[[1]]] [[[2]]]) 1 1 (1 + 1) ∧
      ilniqeScaleConcat [[[(1 : ℚ)]]] [[[2]]] = niqeScaleConcat [[[1]]] [[[2]]] :=
  C1_scale_concat [[[1]]] [[[2]]] 1 1 1 1 (by decide) (by decide)

/-- C2 counterexample: at `α = 1/2` (a value of the lookup grid),
`β_l = 0`, `β_r = 1`, the source's mean statistic is
`Γ(4)/Γ(2) = 6` while the spec's formula gives `sqrt 6`; they differ. -/
theorem C2_counterexample :
    pairwiseMeanCode (1 / 2) 0 1 ≠ pairwiseMeanSpec (1 / 2) 0 1 := by
  unfold pairwiseMeanCode pairwiseMeanSpec
  rw [show (2 : ℝ) / (1 / 2) = 4 by norm_num, show (1 : ℝ) / (1 / 2) = 2 by norm_num]
  have hg4 : Real.Gamma 4 = 6 := by
    rw [show (4 : ℝ) = (3 : ℕ) + 1 by norm_num, Real.Gamma_nat_eq_factorial]
    norm_num [Nat.factorial]
  have hg2 : Real.Gamma 2 = 1 := by
    rw [show (2 : ℝ) = (1 : ℕ) + 1 by norm_num, Real.Gamma_nat_eq_factorial]
    norm_num [Nat.factorial]
  rw [hg4, hg2, Real.log_one]
  rw [show Real.log 6 - 0 = Real.log 6 by ring, Real.exp_log (by norm_num)]
  have hs : Real.sqrt 6 < 6 := by
    nlinarith [Real.sq_sqrt (show (0 : ℝ) ≤ 6 by norm_num), Real.sqrt_nonneg 6]
  have h6 : Real.sqrt (6 / 1) = Real.sqrt 6 := by norm_num
  rw [h6]
  intro heq
  rw [sub_zero, one_mul, one_mul] at heq
  linarith

/-- C2 (amended): for every positive `α` the per-shift mean statistic the
source computes equals `(β_r - β_l) · Γ(2/α)/Γ(1/α)` — the Γ-ratio WITHOUT
the spec's square root. -/
theorem C2_mean (alpha beta_l beta_r : ℝ) (h : 0 < alpha) :
    pairwiseMeanCode alpha beta_l beta_r =
      (beta_r - beta_l) * (Real.Gamma (2 / alpha) / Real.Gamma (1 / alpha)) := by
  unfold pairwiseMeanCode
  rw [Real.exp_sub, Real.exp_log (Real.Gamma_pos_of_pos (by positivity)),
    Real.exp_log (Real.Gamma_pos_of_pos (by positivity))]

/-- C2 witness: the amended statement at `α = 1`, `β_l = 0`, `β_r = 1`. -/
theorem C2_witness :
    0 < (1 : ℝ) ∧ pairwiseMeanCode 1 0 1 =
      (1 - 0) * (Real.Gamma (2 / 1) / Real.Gamma (1 / 1)) :=
  ⟨by norm_num, C2_mean 1 0 1 (by norm_num)⟩

/-- C3 counterexample: the batch `[[0, 0], [1, -1]]` contains a block of
literally zero variance (and zero root mean square), yet the assertion of
`estimate_ggd_param` does not fire, because `torch.isclose(σ, 0).all()`
is false as soon as ONE block of the batch has non-degenerate σ. -/
theorem C3_counterexample :
    varQ [0, 0] = 0 ∧ ggdAssertTriggers [[0, 0], [1, -1]] = false := by
  constructor
  · norm_num [varQ, meanQ]
  · simp only [ggdAssertTriggers, List.all_cons, List.all_nil, Bool.and_true]
    have h2 : (decide (sigmaSqQ [1, -1] ≤ 1 / 10 ^ 16)) = false := by
      rw [decide_eq_false_iff_not]
      norm_num [sigmaSqQ, meanQ]
    rw [h2, Bool.and_false]

/-- C3 (amended): the `estimate_ggd_param` assertion fails exactly when
EVERY block of the batch has root mean square at most `1e-8`
(equivalently `σ² ≤ 1e-16`); a zero-variance block inside a batch with any
non-degenerate block is not signalled and the fit proceeds for it. -/
theorem C3_assert (blocks : List (List ℚ)) :
    ggdAssertTriggers blocks = true ↔
      ∀ xs ∈ blocks, sigmaSqQ xs ≤ 1 / 10 ^ 16 := by
  simp [ggdAssertTriggers, List.all_eq_true]

/-- C4 counterexample: `fitweibull` applied to a row containing the
non-positive value `-1` does not fail: it returns normally, with NaN shape
and NaN scale (here under the concrete oracle `cexO`). -/
theorem C4_counterexample : fitweibull cexO [[2, -1]] = ([EV.nan], [EV.nan]) := by
  decide

/-- C4 (amended): `fitweibull` performs no positivity check at all; in ANY
batch, EVERY row containing a non-positive (zero or negative) entry yields
a normal `(NaN, NaN)` return for that row — exactly what its own docstring
announces — whatever the real-valued primitives do: a negative entry makes
its log NaN, a zero entry makes its log `-inf` (so the mean of the logs is
`-inf` and the deviation at that entry is `-inf - (-inf) = NaN`); either
way the row's standard deviation, its initial `k`, every Newton iterate
(NaN is a fixed point of the update) and its scale are NaN. -/
theorem C4_no_failure (O : RealO) (rows : List (List ℚ)) (i : ℕ) (x : List ℚ)
    (hx : rows[i]? = some x) (h0 : ∃ v ∈ x, v ≤ 0) :
    (fitweibull O rows).1[i]? = some EV.nan ∧
      (fitweibull O rows).2[i]? = some EV.nan := by
  obtain ⟨v, hv, hv0⟩ := h0
  have hlnx : (rows.map (fun r => r.map (fun v => EV.logO O (.fin v))))[i]? =
      some (x.map (fun v => EV.logO O (.fin v))) := by
    rw [List.getElem?_map, hx]
    rfl
  have hstd : fwStd O (x.map (fun v => EV.logO O (.fin v))) = .nan := by
    apply fwStd_nan
    by_cases hneg : ∃ u ∈ x, u < 0
    · obtain ⟨u, hu, hu0⟩ := hneg
      exact Or.inl (List.mem_map.mpr ⟨u, hu, by simp [EV.logO, hu0]⟩)
    · push_neg at hneg
      refine Or.inr ⟨?_, ?_, ?_⟩
      · intro hmem
        obtain ⟨t, ht, hft⟩ := List.mem_map.mp hmem
        by_cases ht0 : t = 0
        · simp [EV.logO, ht0] at hft
        · simp [EV.logO, not_lt.mpr (hneg t ht), ht0] at hft
      · intro hmem
        obtain ⟨t, ht, hft⟩ := List.mem_map.mp hmem
        by_cases ht0 : t = 0
        · simp [EV.logO, ht0] at hft
        · simp [EV.logO, not_lt.mpr (hneg t ht), ht0] at hft
      · have hv00 : v = 0 := le_antisymm hv0 (hneg v hv)
        exact List.mem_map.mpr ⟨v, hv, by simp [EV.logO, hv00]⟩
  have hk0 : ((rows.map (fun r => r.map (fun v => EV.logO O (.fin v)))).map
      (fun lr => (EV.fin (6 / 5)).div (fwStd O lr)))[i]? = some EV.nan := by
    rw [List.getElem?_map, hlnx]
    show some ((EV.fin (6 / 5)).div (fwStd O (x.map (fun v => EV.logO O (.fin v))))) =
      some EV.nan
    rw [hstd]
    rfl
  have hloop := fwLoop_nan_row O rows
    (rows.map (fun r => r.map (fun v => EV.logO O (.fin v)))) i x
    (x.map (fun v => EV.logO O (.fin v))) hx hlnx 50 _ hk0
  rw [fitweibull_eq]
  refine ⟨hloop, ?_⟩
  rw [List.getElem?_zipWith, hx, hloop]
  have hp : EV.nan ∈ x.map (fun xi => EV.powO O (.fin xi) .nan) :=
    List.mem_map.mpr ⟨v, hv, by
      have hv1 : v ≠ 1 := by
        intro hv1
        rw [hv1] at hv0
        norm_num at hv0
      simp [EV.powO, hv1]⟩
  have hm2 : EV.meanL (x.map (fun xi => EV.powO O (.fin xi) .nan)) = .nan := by
    unfold EV.meanL
    rw [sumL_nan hp]
    rfl
  show some (EV.powO O (EV.meanL (x.map (fun xi => EV.powO O (.fin xi) .nan)))
    ((EV.fin 1).div .nan)) = some EV.nan
  rw [hm2]
  rfl

/-- C4 witness: the universal NaN-return statement exercised at the
batch `[[2, -1]]`, row 0. -/
theorem C4_witness :
    (fitweibull cexO [[2, -1]]).1[0]? = some EV.nan ∧
      (fitweibull cexO [[2, -1]]).2[0]? = some EV.nan :=
  C4_no_failure cexO [[2, -1]] 0 [2, -1] rfl ⟨-1, by norm_num, by norm_num⟩

/-- C5 counterexample: the Weibull fitter of the extended pipeline is not
batch-independent.  Under the oracle `cexO`, fitting the row `[2, 5]` alone
stops after one Newton iteration (its own change is below `eps`), but
fitting `[[2, 5], [1, 99]]` keeps iterating because the `max` in the
stopping criterion ranges over the whole batch — so the first row's fitted
shape parameter changes when the second image joins the batch. -/
theorem C5_counterexample :
    (fitweibull cexO [[2, 5], [1, 99]]).1.head? ≠
      (fitweibull cexO [[2, 5]]).1.head? := by
  rw [cexBatch, cexAlone]
  simp only [List.head?, ne_eq, Option.some.injEq, EV.fin.injEq]
  norm_num

/-- C5 (amended): the BASELINE pipeline is batch-independent: splitting the
batch splits the scores.  Every stage of the embedded `niqe` — cropping,
normalization, block feature extraction, the stack-and-transpose
bookkeeping, the per-scale concatenation and the per-item scoring — maps
over the batch dimension (the extended pipeline is excluded: its
`fitweibull` couples rows, see the counterexample). -/
theorem C5_niqe_batch (O : RealO) (K : List (List ℚ)) (muP : List ℚ)
    (covP : List (List ℚ)) (h w : ℕ) (xs ys : List Img) :
    niqe O K muP covP h w (xs ++ ys) =
      niqe O K muP covP h w xs ++ niqe O K muP covP h w ys := by
  by_cases hB : blockIdxList (h / 96) (w / 96) = []
  · unfold niqe niqeScaleFeats
    simp [hB, tList, niqeScaleConcat]
  · unfold niqe
    simp only [niqeScaleFeats_eq_map, hB, ne_eq, not_false_iff]
    simp only [List.map_map, niqeScaleConcat, zipWith_map_same, Function.comp_def]
    simp only [List.map_append]

/-- C6 counterexample: `nanmean` masks with `torch.isnan`, so a `+inf`
entry (non-finite but not NaN) is kept in the sum and counted: the result
on `[+inf, 1]` is `+inf`, not the arithmetic mean `1` of the finite
entries. -/
theorem C6_counterexample :
    nanmean [EV.pinf, EV.fin 1] = EV.pinf ∧ EV.pinf ≠ EV.fin 1 := by
  refine ⟨?_, by simp⟩
  norm_num [nanmean, EV.sumL, EV.add, EV.div, EV.isnan, List.filter]

/-- C6 (amended): for a lane whose entries are finite or NaN (no
infinities), with at least one finite entry, `nanmean` returns exactly the
arithmetic mean of the finite entries: NaNs are zero-filled before the sum
and the division is by the count of non-NaN entries, never the raw count.
(With zero finite entries the division is `0/0`, i.e. NaN — undefined, as
the claim says.) -/
theorem C6_nanmean (v : List EV) (hp : EV.pinf ∉ v) (hn : EV.ninf ∉ v)
    (hne : finPart v ≠ []) :
    nanmean v = EV.fin ((finPart v).sum / ((finPart v).length : ℚ)) := by
  unfold nanmean
  rw [sumL_nanfill v hp hn, count_nanfill v hp hn]
  have hlen : ((finPart v).length : ℚ) ≠ 0 := by
    exact_mod_cast fun hz => hne (List.length_eq_zero.mp (by exact_mod_cast hz))
  simp [EV.div, hlen]

/-- C6 witness: the amended statement on `[NaN, 2, 4]`, whose `nanmean` is
`(2 + 4) / 2 = 3`. -/
theorem C6_witness :
    nanmean [EV.nan, EV.fin 2, EV.fin 4] =
      EV.fin ((finPart [EV.nan, EV.fin 2, EV.fin 4]).sum /
        ((finPart [EV.nan, EV.fin 2, EV.fin 4]).length : ℚ)) :=
  C6_nanmean _ (by decide) (by decide) (by decide)

/-- C7: on a constant-valued map the local normalizer returns exactly 0 at
every pixel: the Gaussian-weighted local mean of a constant `c` is `c`
(the kernel sums to 1), so the numerator vanishes; and the denominator
`σ + C` with `σ = sqrt(|E[x²] - E[x]²| + ε) ≥ 0` and `C = 1` is positive,
so no NaN can arise.  (At this input `|σ²| = |0| = 0 = max(σ², 0)`, so the
source's `abs` stabilisation agrees with the spec's `max` form.) -/
theorem C7_flat_normalize (O : RealO) (K : List (List ℚ)) (h w : ℕ) (c : ℚ)
    (i j : ℕ) (hK : kernelSum K = 1) (hO : ∀ q, 0 ≤ O.sqrt q) :
    normalize_img_with_guass O K h w (fun _ _ => c) i j = 0 ∧
      0 < O.sqrt (|c ^ 2 - c ^ 2| + epsQ) + 1 := by
  have hmu : conv2dRep K h w (fun _ _ => c) i j = c := by
    rw [conv2dRep_const, hK, one_mul]
  constructor
  · unfold normalize_img_with_guass
    simp only [hmu, sub_self, zero_div]
  · have := hO (|c ^ 2 - c ^ 2| + epsQ)
    linarith

/-- C7 witness: the flat-input statement at `c = 5` with the trivial 1-point
kernel `[[1]]` and the all-zero oracle. -/
theorem C7_witness :
    normalize_img_with_guass oracle0 [[1]] 3 3 (fun _ _ => 5) 1 1 = 0 ∧
      0 < oracle0.sqrt (|(5 : ℚ) ^ 2 - 5 ^ 2| + epsQ) + 1 :=
  C7_flat_normalize oracle0 [[1]] 3 3 5 1 1 (by norm_num [kernelSum])
    (fun _ => le_refl 0)

/-- C8: cropping.  Slicing `[b:-b]` on both axes of an `h × w` image yields
exactly the `(h-2b) × (w-2b)` sub-image, and `calculate_niqe` with
`crop_border = b` produces the same scores as `calculate_niqe` with
`crop_border = 0` on the pre-cropped image (the pipeline runs on the
identical cropped view in both cases). -/
theorem C8_crop (O : RealO) (K : List (List ℚ)) (muP : List ℚ)
    (covP : List (List ℚ)) (b h w : ℕ) (imgs : List Img) (m : List (List ℚ))
    (hb : 0 < b) (hh : 2 * b ≤ h) (hw : 2 * b ≤ w) (hm : HasShape2 m h w) :
    HasShape2 (cropMat b m) (h - 2 * b) (w - 2 * b) ∧
      calculate_niqe O K muP covP b h w imgs =
        calculate_niqe O K muP covP 0 (h - 2 * b) (w - 2 * b)
          (imgs.map (cropImg b)) := by
  refine ⟨cropMat_shape hm hh hw, ?_⟩
  unfold calculate_niqe
  rw [if_pos (by omega : b ≠ 0), if_neg (by simp)]

/-- C8 witness: the crop statement at `b = 1` on a 4 × 4 zero image. -/
theorem C8_witness :
    HasShape2 (cropMat 1 [[0, 0, 0, 0], [0, 0, 0, 0], [0, 0, 0, 0], [0, 0, 0, 0]])
        (4 - 2 * 1) (4 - 2 * 1) ∧
      calculate_niqe oracle0 [[1]] [] [] 1 4 4 [fun _ _ => 0] =
        calculate_niqe oracle0 [[1]] [] [] 0 (4 - 2 * 1) (4 - 2 * 1)
          ([fun _ _ => 0].map (cropImg 1)) :=
  C8_crop oracle0 [[1]] [] [] 1 4 4 [fun _ _ => 0]
    [[0, 0, 0, 0], [0, 0, 0, 0], [0, 0, 0, 0], [0, 0, 0, 0]]
    (by decide) (by decide) (by decide) (by decide)

/-- C9: the baseline per-block feature vector has exactly 18 entries —
2 from the block's own AGGD fit plus 4 shift directions × 4 values — for
EVERY oracle, block size and block content (so for all blocks, scales and
batch items: the batched `compute_feature` maps this fixed-length
computation over the batch). -/
theorem C9_feature_length (O : RealO) (hb wb : ℕ) (blk : Img) :
    (compute_feature_single O hb wb blk).length = 18 := rfl

/-- Whatever vector of table distances the fitters build (it always has
the grid's 9801 entries), the looked-up grid entry is in `[0.2, 10]`. -/
lemma alpha_lookup_bounds (l : List ℚ) (hlen : l.length = 9801) :
    1 / 5 ≤ gridLookup l ∧ gridLookup l ≤ 10 := by
  have hne : l ≠ [] := List.ne_nil_of_length_pos (by omega)
  have hpos : argminIdx l < 9801 := hlen ▸ argminIdx_lt l hne
  exact gamGrid_getD_bounds _ hpos

/-- C10: the shape parameters `γ` of `estimate_ggd_param` and `α` of
`estimate_aggd_param` are nearest-neighbour lookups in the fixed grid
`0.2, 0.201, …, 10.0`, so they lie in `[0.2, 10]` for every input block
and every oracle. -/
theorem C10_shape_range (O : RealO) (xs ys : List ℚ) :
    (1 / 5 ≤ (estimate_ggd_param O xs).1 ∧ (estimate_ggd_param O xs).1 ≤ 10) ∧
      (1 / 5 ≤ (estimate_aggd_param O ys).1 ∧
        (estimate_aggd_param O ys).1 ≤ 10) := by
  have hlen : ∀ (f : ℚ → ℚ) (g : ℚ → ℚ), ((gamGrid.map f).map g).length = 9801 := by
    intro f g
    rw [List.length_map, List.length_map, gamGrid_length]
  constructor
  · simp only [estimate_ggd_param]
    exact alpha_lookup_bounds _ (hlen _ _)
  · simp only [estimate_aggd_param]
    exact alpha_lookup_bounds _ (hlen _ _)
